import Mathlib

/-!
Shallow embedding of the moving-average crossover backtest
(`trading_strategy.py`, class `MovingAverageCrossover`).

A price series is a `List ℚ` of daily closes, indexed by bar number
`t = 0, 1, …`.  Pandas columns that can hold `NaN` are embedded as
`ℕ → Option ℚ` (`none` = `NaN`), and the pandas skip-`NaN` reductions
(`cumprod`, `cummax`, `mean`, `std`, `min`) are modelled accordingly:
a `NaN` cell stays `NaN` in a cumulative column but does not poison the
entries after it, and reductions run over the non-`NaN` cells only.
-/

namespace TradingStrategy

/-- The rolling mean `data['Close'].rolling(window=w).mean()` at bar `t`: `NaN` (`none`)
until `w` observations exist, then the mean of the trailing `w` closes
(`min_periods` defaults to the window size). -/
def smaAt (closes : List ℚ) (w t : ℕ) : Option ℚ :=
  if w ≤ t + 1 then some (((closes.drop (t + 1 - w)).take w).sum / (w : ℚ)) else none

/-- The `Signal` column: initialised to `0`, set to `1` where
`SMA_short > SMA_long` and to `-1` where `SMA_short < SMA_long`.
A comparison against `NaN` is false, so any undefined average leaves `0`. -/
def signalAt (closes : List ℚ) (sw lw t : ℕ) : ℤ :=
  match smaAt closes sw t, smaAt closes lw t with
  | some s, some l => if l < s then 1 else if s < l then -1 else 0
  | _, _ => 0

/-- The `Position` column, `Signal.diff()`: `NaN` at the first bar,
`signal[t] - signal[t-1]` afterwards. -/
def positionAt (closes : List ℚ) (sw lw t : ℕ) : Option ℤ :=
  match t with
  | 0 => none
  | t' + 1 => some (signalAt closes sw lw (t' + 1) - signalAt closes sw lw t')

/-- The `Daily_Return` column `Close.pct_change()`: `NaN` at the first bar, `close[t]/close[t-1] - 1`
afterwards. -/
def dailyReturnAt (closes : List ℚ) (t : ℕ) : Option ℚ :=
  match t with
  | 0 => none
  | t' + 1 => some (closes.getD (t' + 1) 0 / closes.getD t' 0 - 1)

/-- The lagged signal `Signal.shift(1)`: `NaN` at the first bar, `signal[t-1]` afterwards. -/
def shiftedSignalAt (closes : List ℚ) (sw lw t : ℕ) : Option ℤ :=
  match t with
  | 0 => none
  | t' + 1 => some (signalAt closes sw lw t')

/-- The `Strategy_Return` column, `Daily_Return * Signal.shift(1)`;
`NaN` times anything is `NaN`. -/
def strategyReturnAt (closes : List ℚ) (sw lw t : ℕ) : Option ℚ :=
  match dailyReturnAt closes t, shiftedSignalAt closes sw lw t with
  | some r, some s => some (r * (s : ℚ))
  | _, _ => none

/-- Pandas `Series.cumprod()` (with its default `skipna=True`) of the
column `f`, at index `t`: a `NaN` cell stays `NaN`, every other cell is
the product of all non-`NaN` cells up to and including it. -/
def cumprodAt (f : ℕ → Option ℚ) (t : ℕ) : Option ℚ :=
  match f t with
  | none => none
  | some _ => some (((List.range (t + 1)).map f).foldl (fun a o => a * o.getD 1) 1)

/-- The `Buy_Hold_Return` column, `(1 + Daily_Return).cumprod()`. -/
def buyHoldCumAt (closes : List ℚ) (t : ℕ) : Option ℚ :=
  cumprodAt (fun i => (dailyReturnAt closes i).map (fun r => 1 + r)) t

/-- The `Strategy_Cumulative` column, `(1 + Strategy_Return).cumprod()`. -/
def strategyCumAt (closes : List ℚ) (sw lw t : ℕ) : Option ℚ :=
  cumprodAt (fun i => (strategyReturnAt closes sw lw i).map (fun r => 1 + r)) t

/-- The `Buy_Hold_Value` column, `initial_capital * Buy_Hold_Return`. -/
def buyHoldValueAt (cap : ℚ) (closes : List ℚ) (t : ℕ) : Option ℚ :=
  (buyHoldCumAt closes t).map (fun c => cap * c)

/-- The `Strategy_Value` column, `initial_capital * Strategy_Cumulative`. -/
def strategyValueAt (cap : ℚ) (closes : List ℚ) (sw lw t : ℕ) : Option ℚ :=
  (strategyCumAt closes sw lw t).map (fun c => cap * c)

/-- The trade count `num_trades = (data['Position'] != 0).sum()`.  In pandas the
comparison `NaN != 0` is `True`, so the first bar's `NaN` delta is
counted; the embedding keeps that behaviour faithfully. -/
def numTrades (closes : List ℚ) (sw lw : ℕ) : ℕ :=
  (List.range closes.length).countP (fun t => positionAt closes sw lw t != some 0)

/-- The non-`NaN` entries of the `Daily_Return` column, in order: the
observations pandas `mean`/`std` (skip-`NaN`) actually aggregate. -/
def dailyReturnsList (closes : List ℚ) : List ℚ :=
  (List.range closes.length).filterMap (dailyReturnAt closes)

/-- The non-`NaN` entries of the `Strategy_Return` column, in order. -/
def stratReturnsList (closes : List ℚ) (sw lw : ℕ) : List ℚ :=
  (List.range closes.length).filterMap (strategyReturnAt closes sw lw)

/-- Pandas `Series.mean()` over the non-`NaN` observations (meaningful for a
nonempty list; pandas returns `NaN` on zero observations, which callers
below handle by the observation count). -/
def sampleMean (l : List ℚ) : ℚ :=
  l.sum / (l.length : ℚ)

/-- The sample variance with `ddof = 1` underlying `Series.std()`:
`Σ (x - mean)² / (n - 1)` (meaningful for `n ≥ 2`; pandas `std` is
`NaN` below two observations). -/
def sampleVarQ (l : List ℚ) : ℚ :=
  (l.map (fun x => (x - sampleMean l) ^ 2)).sum / ((l.length - 1 : ℕ) : ℚ)

/-- IEEE-754 classification of the Sharpe computation
`(returns.mean() / returns.std()) * np.sqrt(252)`.  `finite m v`
denotes the finite value `m / √v * √252` where `m` is the mean and `v`
the sample variance of the observations (kept as the exact pair, since
the square roots are irrational); the other constructors are the float
specials the expression produces. -/
inductive SharpeVal : Type where
  | nan : SharpeVal
  | posInf : SharpeVal
  | negInf : SharpeVal
  | finite (mean variance : ℚ) : SharpeVal
deriving DecidableEq

/-- The expression `(l.mean() / l.std()) * np.sqrt(252)` over the non-`NaN`
observations `l`, classified as an IEEE float result: fewer than two
observations give `std = NaN` hence `NaN`; zero variance gives
`std = 0.0` and the division yields `NaN` (`0/0`) or `±inf` (`m/0`,
`m ≠ 0`); otherwise the value is finite.  Multiplying by the positive
finite `np.sqrt(252)` preserves the classification. -/
def sharpeValOf (l : List ℚ) : SharpeVal :=
  if 2 ≤ l.length then
    if sampleVarQ l = 0 then
      if sampleMean l = 0 then .nan
      else if 0 < sampleMean l then .posInf else .negInf
    else .finite (sampleMean l) (sampleVarQ l)
  else .nan

/-- Pandas `Series.cummax()` of the column `f` at index `t`: a `NaN`
cell stays `NaN`, every other cell is the maximum of the non-`NaN`
cells up to and including it. -/
def cummaxAt (f : ℕ → Option ℚ) (t : ℕ) : Option ℚ :=
  match f t with
  | none => none
  | some v => some (((List.range t).filterMap f).foldl max v)

/-- The `strategy_drawdown` column,
`(Strategy_Value - Strategy_Value.cummax()) / Strategy_Value.cummax() * 100`. -/
def drawdownAt (cap : ℚ) (closes : List ℚ) (sw lw t : ℕ) : Option ℚ :=
  match strategyValueAt cap closes sw lw t,
        cummaxAt (strategyValueAt cap closes sw lw) t with
  | some v, some m => some ((v - m) / m * 100)
  | _, _ => none

/-- The metric `max_drawdown = strategy_drawdown.min()`: the minimum over the
non-`NaN` drawdowns, `NaN` when every entry is `NaN`. -/
def maxDrawdown (cap : ℚ) (closes : List ℚ) (sw lw : ℕ) : Option ℚ :=
  match (List.range closes.length).filterMap (drawdownAt cap closes sw lw) with
  | [] => none
  | x :: xs => some (xs.foldl min x)

/-- The expression `((final_value / initial_capital) - 1) * 100`, the total-return
formula of `calculate_metrics`. -/
noncomputable def totalReturnPct (fv cap : ℝ) : ℝ :=
  (fv / cap - 1) * 100

/-- The expression `((final_value / initial_capital) ** (1 / years) - 1) * 100`, the
annualized-return formula of `calculate_metrics` (real exponentiation). -/
noncomputable def annualizedReturnPct (fv cap years : ℝ) : ℝ :=
  ((fv / cap) ^ ((1 : ℝ) / years) - 1) * 100

/-- The numeric parts of the dictionary built by `calculate_metrics`
(display rounding and currency formatting are presentation only). -/
structure Metrics : Type where
  buyHoldTotal : Option ℚ
  strategyTotal : Option ℚ
  buyHoldFinal : Option ℚ
  strategyFinal : Option ℚ
  buyHoldSharpe : SharpeVal
  strategySharpe : SharpeVal
  maxDD : Option ℚ
  trades : ℕ

/-- The method `calculate_metrics`: final values are `iloc[-1]`, i.e. the column at
bar `length - 1`. -/
def calcMetrics (closes : List ℚ) (sw lw : ℕ) (cap : ℚ) : Metrics :=
  ⟨(buyHoldValueAt cap closes (closes.length - 1)).map (fun v => (v / cap - 1) * 100),
   (strategyValueAt cap closes sw lw (closes.length - 1)).map (fun v => (v / cap - 1) * 100),
   buyHoldValueAt cap closes (closes.length - 1),
   strategyValueAt cap closes sw lw (closes.length - 1),
   sharpeValOf (dailyReturnsList closes),
   sharpeValOf (stratReturnsList closes sw lw),
   maxDrawdown cap closes sw lw,
   numTrades closes sw lw⟩

/-- The `Buy_Hold_Return` column as a list (one entry per bar). -/
def buyHoldCumList (closes : List ℚ) : List (Option ℚ) :=
  (List.range closes.length).map (buyHoldCumAt closes)

/-- The `Buy_Hold_Value` column as a list (one entry per bar). -/
def buyHoldValueList (cap : ℚ) (closes : List ℚ) : List (Option ℚ) :=
  (List.range closes.length).map (buyHoldValueAt cap closes)

/-- Modelled from the spec: the rolling mean as the spec's naive
windowed recomputation, `mean(close[t-w+1 .. t])` once `w` bars exist,
undefined before. -/
def specRollingMean (closes : List ℚ) (w t : ℕ) : Option ℚ :=
  if t + 1 < w then none
  else some (((List.range w).map (fun j => closes.getD (t + 1 - w + j) 0)).sum / (w : ℚ))

/-- Modelled from the spec: the running product of `(1 + return)` from
the series start seeded at `1.0`, an undefined return contributing a
`1.0` factor. -/
def specCumFromStart (ret : ℕ → Option ℚ) (t : ℕ) : ℚ :=
  ((List.range (t + 1)).map (fun i => 1 + (ret i).getD 0)).prod

/-- Modelled from the spec: `trade_count` as the count of bars with a
nonzero position delta, the first bar's undefined delta treated as
zero (not counted). -/
def specTradeCount (closes : List ℚ) (sw lw : ℕ) : ℕ :=
  (List.range closes.length).countP (fun t => (positionAt closes sw lw t).getD 0 != 0)

/-! ### Helper lemmas -/

lemma foldl_mul_getD (l : List (Option ℚ)) (c : ℚ) :
    l.foldl (fun a o => a * o.getD 1) c = c * (l.map (fun o => o.getD 1)).prod := by
  induction l generalizing c with
  | nil => simp
  | cons x xs ih => simp [ih, mul_assoc]

lemma cumprodAt_eq_some (f : ℕ → Option ℚ) (t : ℕ) (x : ℚ) (h : f t = some x) :
    cumprodAt f t =
      some (((List.range (t + 1)).map (fun i => (f i).getD 1)).prod) := by
  unfold cumprodAt
  rw [h, foldl_mul_getD, one_mul, List.map_map]
  rfl

lemma cumprodAt_none (f : ℕ → Option ℚ) (t : ℕ) (h : f t = none) :
    cumprodAt f t = none := by
  unfold cumprodAt
  rw [h]

lemma le_foldl_max (xs : List ℚ) (a : ℚ) : a ≤ xs.foldl max a := by
  induction xs generalizing a with
  | nil => simp
  | cons x xs ih => exact le_trans (le_max_left a x) (ih (max a x))

lemma mem_le_foldl_max (x : ℚ) (xs : List ℚ) :
    ∀ a : ℚ, x ∈ xs → x ≤ xs.foldl max a := by
  induction xs with
  | nil => intro a hx; cases hx
  | cons y ys ih =>
    intro a hx
    rcases List.mem_cons.mp hx with h | h
    · subst h
      exact le_trans (le_max_right a x) (le_foldl_max ys (max a x))
    · exact ih (max a y) h

lemma foldl_min_le_init (xs : List ℚ) (a : ℚ) : xs.foldl min a ≤ a := by
  induction xs generalizing a with
  | nil => simp
  | cons x xs ih => exact le_trans (ih (min a x)) (min_le_left a x)

lemma foldl_min_le_mem (x : ℚ) (xs : List ℚ) :
    ∀ a : ℚ, x ∈ xs → xs.foldl min a ≤ x := by
  induction xs with
  | nil => intro a hx; cases hx
  | cons y ys ih =>
    intro a hx
    rcases List.mem_cons.mp hx with h | h
    · subst h
      exact le_trans (foldl_min_le_init ys (min a x)) (min_le_right a x)
    · exact ih (min a y) h

lemma foldl_min_mem (xs : List ℚ) :
    ∀ a : ℚ, xs.foldl min a = a ∨ xs.foldl min a ∈ xs := by
  induction xs with
  | nil => intro a; left; rfl
  | cons y ys ih =>
    intro a
    rcases ih (min a y) with h | h
    · rcases min_choice a y with hm | hm
      · left; rw [List.foldl_cons, h, hm]
      · right; rw [List.foldl_cons, h, hm]; exact List.mem_cons_self _ _
    · right; exact List.mem_cons_of_mem _ h

lemma all_zero_of_nonneg_sum_zero (l : List ℚ) (h0 : ∀ x ∈ l, 0 ≤ x)
    (hs : l.sum = 0) : ∀ x ∈ l, x = 0 := by
  induction l with
  | nil => intro x hx; cases hx
  | cons y ys ih =>
    have hy : 0 ≤ y := h0 y (List.mem_cons_self _ _)
    have hys : 0 ≤ ys.sum :=
      List.sum_nonneg (fun x hx => h0 x (List.mem_cons_of_mem _ hx))
    have hsum : y + ys.sum = 0 := by simpa using hs
    have hy0 : y = 0 := le_antisymm (by linarith) hy
    have hys0 : ys.sum = 0 := by linarith
    intro x hx
    rcases List.mem_cons.mp hx with h | h
    · rw [h, hy0]
    · exact ih (fun z hz => h0 z (List.mem_cons_of_mem _ hz)) hys0 x h

/-- The signal at the very first bar is always neutral: a window larger
than one bar makes its average undefined there, and two windows of one
bar tie. -/
lemma signalAt_zero (closes : List ℚ) (sw lw : ℕ) (hsw : 1 ≤ sw) (hlw : 1 ≤ lw) :
    signalAt closes sw lw 0 = 0 := by
  unfold signalAt smaAt
  by_cases h1 : sw ≤ 1
  · have hsw1 : sw = 1 := le_antisymm h1 hsw
    by_cases h2 : lw ≤ 1
    · have hlw1 : lw = 1 := le_antisymm h2 hlw
      subst hsw1; subst hlw1
      simp
    · subst hsw1
      simp [Nat.zero_add, h2]
  · simp [h1]

lemma strategyReturnAt_zero (closes : List ℚ) (sw lw : ℕ) :
    strategyReturnAt closes sw lw 0 = none := rfl

lemma strategyReturnAt_succ (closes : List ℚ) (sw lw t' : ℕ) :
    strategyReturnAt closes sw lw (t' + 1) =
      some ((closes.getD (t' + 1) 0 / closes.getD t' 0 - 1) *
        ((signalAt closes sw lw t' : ℤ) : ℚ)) := rfl

/-- The first strategy return is zero: it multiplies the day-1 return by
the (always neutral) signal of bar 0. -/
lemma strategyReturnAt_one (closes : List ℚ) (sw lw : ℕ)
    (hsw : 1 ≤ sw) (hlw : 1 ≤ lw) :
    strategyReturnAt closes sw lw 1 = some 0 := by
  rw [strategyReturnAt_succ, signalAt_zero closes sw lw hsw hlw]
  simp

lemma strategyCumAt_zero (closes : List ℚ) (sw lw : ℕ) :
    strategyCumAt closes sw lw 0 = none := rfl

lemma strategyValueAt_zero (cap : ℚ) (closes : List ℚ) (sw lw : ℕ) :
    strategyValueAt cap closes sw lw 0 = none := rfl

lemma strategyCumAt_one (closes : List ℚ) (sw lw : ℕ)
    (hsw : 1 ≤ sw) (hlw : 1 ≤ lw) :
    strategyCumAt closes sw lw 1 = some 1 := by
  unfold strategyCumAt
  rw [cumprodAt_eq_some _ 1 (1 + 0)
    (by rw [strategyReturnAt_one closes sw lw hsw hlw]; rfl)]
  have h0 : strategyReturnAt closes sw lw 0 = none := rfl
  have h1 : strategyReturnAt closes sw lw 1 = some 0 :=
    strategyReturnAt_one closes sw lw hsw hlw
  simp [List.range_succ, h0, h1]

lemma strategyValueAt_one (cap : ℚ) (closes : List ℚ) (sw lw : ℕ)
    (hsw : 1 ≤ sw) (hlw : 1 ≤ lw) :
    strategyValueAt cap closes sw lw 1 = some cap := by
  unfold strategyValueAt
  rw [strategyCumAt_one closes sw lw hsw hlw]
  simp

lemma strategyValueAt_succ_isSome (cap : ℚ) (closes : List ℚ) (sw lw t' : ℕ) :
    ∃ v, strategyValueAt cap closes sw lw (t' + 1) = some v := by
  unfold strategyValueAt strategyCumAt
  rw [cumprodAt_eq_some _ (t' + 1)
    (1 + ((closes.getD (t' + 1) 0 / closes.getD t' 0 - 1) *
      ((signalAt closes sw lw t' : ℤ) : ℚ)))
    (by rw [strategyReturnAt_succ]; rfl)]
  exact ⟨_, rfl⟩

lemma cummaxAt_eq_some (f : ℕ → Option ℚ) (t : ℕ) (v : ℚ) (h : f t = some v) :
    cummaxAt f t = some (((List.range t).filterMap f).foldl max v) := by
  unfold cummaxAt
  rw [h]

lemma cummaxAt_cases (f : ℕ → Option ℚ) (t : ℕ) (m : ℚ)
    (h : cummaxAt f t = some m) :
    ∃ v, f t = some v ∧ m = ((List.range t).filterMap f).foldl max v := by
  rcases hf : f t with _ | v
  · rw [cummaxAt, hf] at h
    cases h
  · rw [cummaxAt_eq_some f t v hf] at h
    exact ⟨v, rfl, (Option.some_inj.mp h).symm⟩

/-- The running maximum of `Strategy_Value` is at least the initial
capital wherever it is defined: bar 1's value is exactly the capital
(bar 0's is `NaN`), and every later running maximum dominates it. -/
lemma cummaxAt_strategyValue_ge_cap (cap : ℚ) (closes : List ℚ) (sw lw t : ℕ)
    (hsw : 1 ≤ sw) (hlw : 1 ≤ lw) (m : ℚ)
    (h : cummaxAt (strategyValueAt cap closes sw lw) t = some m) :
    cap ≤ m := by
  obtain ⟨v, hv, hm⟩ := cummaxAt_cases _ t m h
  match t with
  | 0 =>
    rw [strategyValueAt_zero] at hv
    cases hv
  | 1 =>
    have hv1 : v = cap := by
      rw [strategyValueAt_one cap closes sw lw hsw hlw] at hv
      exact (Option.some_inj.mp hv).symm
    have : (List.range 1).filterMap (strategyValueAt cap closes sw lw) = [] := by
      simp [List.range_succ, strategyValueAt_zero]
    rw [hm, this, hv1]
    simp
  | t' + 2 =>
    have hmem : cap ∈ (List.range (t' + 2)).filterMap (strategyValueAt cap closes sw lw) :=
      List.mem_filterMap.mpr ⟨1, List.mem_range.mpr (by omega),
        strategyValueAt_one cap closes sw lw hsw hlw⟩
    rw [hm]
    exact mem_le_foldl_max cap _ v hmem

lemma cummaxAt_ge_self (f : ℕ → Option ℚ) (t : ℕ) (v m : ℚ)
    (hv : f t = some v) (hm : cummaxAt f t = some m) : v ≤ m := by
  rw [cummaxAt_eq_some f t v hv] at hm
  rw [← Option.some_inj.mp hm]
  exact le_foldl_max _ v

lemma drawdownAt_eq_some (cap : ℚ) (closes : List ℚ) (sw lw t : ℕ) (v m : ℚ)
    (hv : strategyValueAt cap closes sw lw t = some v)
    (hm : cummaxAt (strategyValueAt cap closes sw lw) t = some m) :
    drawdownAt cap closes sw lw t = some ((v - m) / m * 100) := by
  unfold drawdownAt
  rw [hv, hm]

lemma drawdownAt_cases (cap : ℚ) (closes : List ℚ) (sw lw t : ℕ) (e : ℚ)
    (h : drawdownAt cap closes sw lw t = some e) :
    ∃ v m, strategyValueAt cap closes sw lw t = some v ∧
      cummaxAt (strategyValueAt cap closes sw lw) t = some m ∧
      e = (v - m) / m * 100 := by
  rcases hv : strategyValueAt cap closes sw lw t with _ | v
  · rw [drawdownAt, hv] at h
    cases h
  · rcases hm : cummaxAt (strategyValueAt cap closes sw lw) t with _ | m
    · rw [drawdownAt, hv, hm] at h
      cases h
    · rw [drawdownAt_eq_some cap closes sw lw t v m hv hm] at h
      exact ⟨v, m, rfl, rfl, (Option.some_inj.mp h).symm⟩

/-- Every defined drawdown entry is nonpositive, and it is zero exactly
when the strategy value sits at its running maximum. -/
lemma drawdownAt_nonpos (cap : ℚ) (closes : List ℚ) (sw lw t : ℕ)
    (hsw : 1 ≤ sw) (hlw : 1 ≤ lw) (hcap : 0 < cap) (e : ℚ)
    (h : drawdownAt cap closes sw lw t = some e) :
    e ≤ 0 := by
  obtain ⟨v, m, hv, hm, he⟩ := drawdownAt_cases cap closes sw lw t e h
  have hvm : v ≤ m := cummaxAt_ge_self _ t v m hv hm
  have hmpos : 0 < m :=
    lt_of_lt_of_le hcap (cummaxAt_strategyValue_ge_cap cap closes sw lw t hsw hlw m hm)
  have hdiv : (v - m) / m ≤ 0 :=
    div_nonpos_iff.mpr (Or.inr ⟨sub_nonpos.mpr hvm, hmpos.le⟩)
  rw [he]
  nlinarith

lemma drawdownAt_eq_zero_iff (cap : ℚ) (closes : List ℚ) (sw lw t : ℕ)
    (hsw : 1 ≤ sw) (hlw : 1 ≤ lw) (hcap : 0 < cap) (v m : ℚ)
    (hv : strategyValueAt cap closes sw lw t = some v)
    (hm : cummaxAt (strategyValueAt cap closes sw lw) t = some m) :
    ((v - m) / m * 100 = 0 ↔ v = m) := by
  have hmpos : 0 < m :=
    lt_of_lt_of_le hcap (cummaxAt_strategyValue_ge_cap cap closes sw lw t hsw hlw m hm)
  constructor
  · intro h
    rcases mul_eq_zero.mp h with h' | h'
    · rcases div_eq_zero_iff.mp h' with h'' | h''
      · linarith [sub_eq_zero.mp h'']
      · exact absurd h'' (ne_of_gt hmpos)
    · norm_num at h'
  · intro h
    rw [h]
    simp

/-- The drawdown at bar 1 is defined and equal to zero: bar 1's value
is the initial capital and is also the running maximum there. -/
lemma drawdownAt_one (cap : ℚ) (closes : List ℚ) (sw lw : ℕ)
    (hsw : 1 ≤ sw) (hlw : 1 ≤ lw) :
    drawdownAt cap closes sw lw 1 = some 0 := by
  have hv : strategyValueAt cap closes sw lw 1 = some cap :=
    strategyValueAt_one cap closes sw lw hsw hlw
  have hm : cummaxAt (strategyValueAt cap closes sw lw) 1 = some cap := by
    rw [cummaxAt_eq_some _ 1 cap hv]
    simp [List.range_succ, strategyValueAt_zero]
  rw [drawdownAt_eq_some cap closes sw lw 1 cap cap hv hm]
  simp

/-! ### Claim theorems -/

/-- C6: for every price series (at least two bars) with positive closes,
positive initial capital and positive windows, the reported
`max_drawdown` — the minimum over bars of
`(strategy_value - running max) / running max * 100` — is defined,
nonpositive, and zero exactly when the strategy value never drops below
its running peak. -/
theorem c6_max_drawdown_nonpos (cap : ℚ) (closes : List ℚ) (sw lw : ℕ)
    (hn : 2 ≤ closes.length) (hpos : ∀ c ∈ closes, 0 < c) (hcap : 0 < cap)
    (hsw : 1 ≤ sw) (hlw : 1 ≤ lw) :
    ∃ d, maxDrawdown cap closes sw lw = some d ∧ d ≤ 0 ∧
      (d = 0 ↔ ∀ t < closes.length, ∀ v m,
        strategyValueAt cap closes sw lw t = some v →
        cummaxAt (strategyValueAt cap closes sw lw) t = some m → m ≤ v) := by
  have hmem0 : (0 : ℚ) ∈
      (List.range closes.length).filterMap (drawdownAt cap closes sw lw) :=
    List.mem_filterMap.mpr ⟨1, List.mem_range.mpr (by omega),
      drawdownAt_one cap closes sw lw hsw hlw⟩
  rcases hDD : (List.range closes.length).filterMap (drawdownAt cap closes sw lw) with
    _ | ⟨x, xs⟩
  · rw [hDD] at hmem0
    cases hmem0
  · have hmd : maxDrawdown cap closes sw lw = some (xs.foldl min x) := by
      unfold maxDrawdown
      rw [hDD]
    set d := xs.foldl min x with hd
    have hd_le : ∀ e ∈ x :: xs, d ≤ e := by
      intro e he
      rcases List.mem_cons.mp he with h | h
      · rw [h]
        exact foldl_min_le_init xs x
      · exact foldl_min_le_mem e xs x h
    have hd_mem : d ∈ x :: xs := by
      rcases foldl_min_mem xs x with h | h
      · rw [hd, h]
        exact List.mem_cons_self _ _
      · exact List.mem_cons_of_mem _ h
    have hDDmem : ∀ e ∈ x :: xs, ∃ t, t < closes.length ∧
        drawdownAt cap closes sw lw t = some e := by
      intro e he
      rw [← hDD] at he
      obtain ⟨t, ht, he'⟩ := List.mem_filterMap.mp he
      exact ⟨t, List.mem_range.mp ht, he'⟩
    have hnonpos : ∀ e ∈ x :: xs, e ≤ 0 := by
      intro e he
      obtain ⟨t, _, he'⟩ := hDDmem e he
      exact drawdownAt_nonpos cap closes sw lw t hsw hlw hcap e he'
    refine ⟨d, hmd, hnonpos d hd_mem, ?_, ?_⟩
    · intro hd0 t ht v m hv hm
      have he : drawdownAt cap closes sw lw t = some ((v - m) / m * 100) :=
        drawdownAt_eq_some cap closes sw lw t v m hv hm
      have hemem : ((v - m) / m * 100) ∈ x :: xs := by
        rw [← hDD]
        exact List.mem_filterMap.mpr ⟨t, List.mem_range.mpr ht, he⟩
      have h1 : ((v - m) / m * 100) ≤ 0 := hnonpos _ hemem
      have h2 : d ≤ ((v - m) / m * 100) := hd_le _ hemem
      have h3 : ((v - m) / m * 100) = 0 := le_antisymm h1 (hd0 ▸ h2)
      exact le_of_eq
        ((drawdownAt_eq_zero_iff cap closes sw lw t hsw hlw hcap v m hv hm).mp h3).symm
    · intro H
      obtain ⟨t, ht, he⟩ := hDDmem d hd_mem
      obtain ⟨v, m, hv, hm, hde⟩ := drawdownAt_cases cap closes sw lw t d he
      have hvm : v ≤ m := cummaxAt_ge_self _ t v m hv hm
      have hmv : m ≤ v := H t ht v m hv hm
      have : v = m := le_antisymm hvm hmv
      rw [hde]
      exact (drawdownAt_eq_zero_iff cap closes sw lw t hsw hlw hcap v m hv hm).mpr this

/-- Witness for C6 at the concrete series `[1, 2]` with capital `1`,
windows `1` and `2`. -/
theorem c6_witness :
    ∃ d, maxDrawdown 1 [1, 2] 1 2 = some d ∧ d ≤ 0 ∧
      (d = 0 ↔ ∀ t < ([1, 2] : List ℚ).length, ∀ v m,
        strategyValueAt 1 [1, 2] 1 2 t = some v →
        cummaxAt (strategyValueAt 1 [1, 2] 1 2) t = some m → m ≤ v) :=
  c6_max_drawdown_nonpos 1 [1, 2] 1 2 (by decide) (by decide) (by decide)
    (by decide) (by decide)

/-- C1: for every bar `t ≥ 1`, the strategy return at `t` equals the
daily return at `t` times the signal at `t - 1`, and it depends only on
those two quantities: two runs agreeing on them (but possibly differing
in prices, windows, and in particular in the signal at `t` itself)
produce the same strategy return at `t`. -/
theorem c1_strategy_return_lag (closes closes' : List ℚ)
    (sw lw sw' lw' t : ℕ) (ht : 1 ≤ t) :
    (∀ r, dailyReturnAt closes t = some r →
      strategyReturnAt closes sw lw t =
        some (r * ((signalAt closes sw lw (t - 1) : ℤ) : ℚ))) ∧
    (dailyReturnAt closes t = dailyReturnAt closes' t →
      signalAt closes sw lw (t - 1) = signalAt closes' sw' lw' (t - 1) →
      strategyReturnAt closes sw lw t = strategyReturnAt closes' sw' lw' t) := by
  match t, ht with
  | t' + 1, _ =>
    constructor
    · intro r hr
      rw [strategyReturnAt_succ]
      have : r = closes.getD (t' + 1) 0 / closes.getD t' 0 - 1 := by
        rw [dailyReturnAt] at hr
        exact Option.some_inj.mp hr.symm
      rw [this]
      rfl
    · intro hret hsig
      rw [strategyReturnAt_succ, strategyReturnAt_succ]
      rw [dailyReturnAt, dailyReturnAt] at hret
      have hr := Option.some_inj.mp hret
      simp only [Nat.add_sub_cancel] at hsig
      rw [hr, hsig]

/-- Witness for C1 at `closes = [1, 2]`, `t = 1`: the lag identity and
the noninterference conclusion (against windows `2, 3`) both hold. -/
theorem c1_witness :
    strategyReturnAt [1, 2] 1 2 1 =
      some ((1 : ℚ) * ((signalAt [1, 2] 1 2 0 : ℤ) : ℚ)) ∧
    strategyReturnAt [1, 2] 1 2 1 = strategyReturnAt [1, 2] 2 3 1 := by
  constructor
  · exact (c1_strategy_return_lag [1, 2] [1, 2] 1 2 2 3 1 (by decide)).1 1
      (by rw [dailyReturnAt]; norm_num)
  · exact (c1_strategy_return_lag [1, 2] [1, 2] 1 2 2 3 1 (by decide)).2 rfl
      (by rw [signalAt_zero [1, 2] 1 2 (by decide) (by decide),
              signalAt_zero [1, 2] 2 3 (by decide) (by decide)])

/-- C4: every signal is `-1`, `0` or `1`; it is `0` whenever either
moving average is undefined, and `0` on an exact tie of the two
averages. -/
theorem c4_signal_range_and_neutral (closes : List ℚ) (sw lw t : ℕ) :
    (signalAt closes sw lw t = -1 ∨ signalAt closes sw lw t = 0 ∨
      signalAt closes sw lw t = 1) ∧
    ((smaAt closes sw t = none ∨ smaAt closes lw t = none) →
      signalAt closes sw lw t = 0) ∧
    (∀ q, smaAt closes sw t = some q → smaAt closes lw t = some q →
      signalAt closes sw lw t = 0) := by
  refine ⟨?_, ?_, ?_⟩
  · unfold signalAt
    rcases smaAt closes sw t with _ | s <;> rcases smaAt closes lw t with _ | l
    · simp
    · simp
    · simp
    · by_cases h1 : l < s
      · simp [h1]
      · by_cases h2 : s < l
        · simp [h1, h2]
        · simp [h1, h2]
  · intro h
    unfold signalAt
    rcases hs : smaAt closes sw t with _ | s <;>
      rcases hl : smaAt closes lw t with _ | l <;> simp_all
  · intro q hs hl
    unfold signalAt
    rw [hs, hl]
    simp

/-- Witness for C4: an undefined long average and an exact tie both
force a neutral signal, at concrete inputs. -/
theorem c4_witness :
    signalAt [1] 1 2 0 = 0 ∧ signalAt [1, 1] 1 1 1 = 0 := by
  constructor
  · exact (c4_signal_range_and_neutral [1] 1 2 0).2.1
      (Or.inr (by rw [smaAt]; norm_num))
  · exact (c4_signal_range_and_neutral [1, 1] 1 1 1).2.2 1
      (by rw [smaAt]; norm_num) (by rw [smaAt]; norm_num)

/-- C2 evidence: on the series `[1,1,2,3,2,1,1,2]` with windows `1` and
`2` the signal sequence is exactly the fixture `[0,0,1,1,-1,-1,0,1]` of
the claim; the code's trade count `(Position != 0).sum()` is `5`
because pandas evaluates `NaN != 0` as `True` on the first bar, while
the count of bars with a nonzero (defined) position delta is `4`. -/
theorem c2_trade_count_counts_first_nan :
    (List.range 8).map (signalAt [1, 1, 2, 3, 2, 1, 1, 2] 1 2) =
      [0, 0, 1, 1, -1, -1, 0, 1] ∧
    numTrades [1, 1, 2, 3, 2, 1, 1, 2] 1 2 = 5 ∧
    specTradeCount [1, 1, 2, 3, 2, 1, 1, 2] 1 2 = 4 := by
  refine ⟨?_, ?_, ?_⟩
  · norm_num [signalAt, smaAt, List.range_succ]
  · norm_num [numTrades, positionAt, signalAt, smaAt, List.range_succ,
      List.countP_cons]
    simp
  · norm_num [specTradeCount, positionAt, signalAt, smaAt, List.range_succ,
      List.countP_cons]

lemma map_one_add_getD (o : Option ℚ) :
    (o.map (fun r => 1 + r)).getD 1 = 1 + o.getD 0 := by
  cases o <;> simp

/-- Skip-`NaN` `cumprod` of `1 + returns` at a defined entry `t ≥ 1`
equals the spec's seeded running product, with every undefined return
contributing a `1.0` factor. -/
lemma cumprod_one_add_succ (ret : ℕ → Option ℚ) (t' : ℕ) (r : ℚ)
    (h : ret (t' + 1) = some r) :
    cumprodAt (fun i => (ret i).map (fun x => 1 + x)) (t' + 1) =
      some (specCumFromStart ret (t' + 1)) := by
  rw [cumprodAt_eq_some _ (t' + 1) (1 + r) (by rw [h]; rfl)]
  unfold specCumFromStart
  congr 1
  have hfun : (fun i => ((ret i).map (fun x => 1 + x)).getD 1) =
      fun i => 1 + (ret i).getD 0 :=
    funext fun i => map_one_add_getD (ret i)
  rw [hfun]

/-- C3 counterexample: on the two-bar series `[1, 2]` the cumulative
factors at the first bar are `NaN` (`none`), not `1.0` — pandas
`cumprod` keeps the `NaN` cell produced by the undefined first return. -/
theorem c3_counterexample :
    ¬ (buyHoldCumAt [1, 2] 0 = some 1 ∨ strategyCumAt [1, 2] 1 2 0 = some 1) := by
  intro h
  have h1 : buyHoldCumAt [1, 2] 0 = none := rfl
  have h2 : strategyCumAt [1, 2] 1 2 0 = none := rfl
  rcases h with h | h
  · rw [h1] at h
    cases h
  · rw [h2] at h
    cases h

/-- C3 amended: the cumulative factor at the first bar is undefined
(`NaN`), not `1.0`; from bar 1 on, the skip-`NaN` running product
equals the spec's product of `(1 + return)` seeded at `1.0` in which
the first bar's undefined return contributes a `1.0` factor — so the
undefined value does not propagate past bar 0. -/
theorem c3_amended_cum_products (closes : List ℚ) (sw lw t : ℕ) :
    buyHoldCumAt closes t =
      (if t = 0 then none else some (specCumFromStart (dailyReturnAt closes) t)) ∧
    strategyCumAt closes sw lw t =
      (if t = 0 then none
       else some (specCumFromStart (strategyReturnAt closes sw lw) t)) := by
  match t with
  | 0 => exact ⟨rfl, rfl⟩
  | t' + 1 =>
    rw [if_neg (Nat.succ_ne_zero t'), if_neg (Nat.succ_ne_zero t')]
    constructor
    · exact cumprod_one_add_succ (dailyReturnAt closes) t' _ rfl
    · exact cumprod_one_add_succ (strategyReturnAt closes sw lw) t' _
        (strategyReturnAt_succ closes sw lw t')

/-- The trailing window of length `w` starting at offset `a`, as the
element-by-element list of closes. -/
lemma drop_take_eq_map_getD (closes : List ℚ) (a w : ℕ)
    (h : a + w ≤ closes.length) :
    (closes.drop a).take w = (List.range w).map (fun j => closes.getD (a + j) 0) := by
  apply List.ext_getElem
  · simp
    omega
  · intro i h1 h2
    have hi : i < w := by
      simpa using h2
    have hai : a + i < closes.length := by omega
    simp [List.getElem_take, List.getElem_drop, List.getD_eq_getElem?_getD,
      List.getElem?_eq_getElem hai]

/-- C5: the rolling mean is undefined until `w` bars exist and equals
the naive mean of the trailing `w` closes afterwards — numerically
identical to the spec's naive recomputation. -/
theorem c5_rolling_mean_naive (closes : List ℚ) (w t : ℕ)
    (hw : 1 ≤ w) (ht : t < closes.length) :
    smaAt closes w t = specRollingMean closes w t ∧
    (t + 1 < w → smaAt closes w t = none) ∧
    (w ≤ t + 1 → ∃ q, smaAt closes w t =
      some (((closes.drop (t + 1 - w)).take w).sum / (w : ℚ)) ∧
      q = ((List.range w).map (fun j => closes.getD (t + 1 - w + j) 0)).sum / (w : ℚ) ∧
      smaAt closes w t = some q) := by
  have hmain : smaAt closes w t = specRollingMean closes w t := by
    unfold smaAt specRollingMean
    by_cases hcond : w ≤ t + 1
    · rw [if_pos hcond, if_neg (by omega)]
      have hw' : (t + 1 - w) + w ≤ closes.length := by omega
      rw [drop_take_eq_map_getD closes (t + 1 - w) w hw']
    · rw [if_neg hcond, if_pos (by omega)]
  refine ⟨hmain, ?_, ?_⟩
  · intro hlt
    unfold smaAt
    rw [if_neg (by omega)]
  · intro hle
    refine ⟨((List.range w).map (fun j => closes.getD (t + 1 - w + j) 0)).sum / (w : ℚ),
      ?_, rfl, ?_⟩
    · unfold smaAt
      rw [if_pos hle]
    · rw [hmain]
      unfold specRollingMean
      rw [if_neg (by omega)]

/-- Witness for C5 at `closes = [1, 3]`, `w = 2`, `t = 1`: the rolling
mean agrees with the naive windowed mean. -/
theorem c5_witness :
    smaAt [1, 3] 2 1 = specRollingMean [1, 3] 2 1 ∧ smaAt [1, 3] 2 0 = none := by
  constructor
  · exact (c5_rolling_mean_naive [1, 3] 2 1 (by decide) (by decide)).1
  · exact (c5_rolling_mean_naive [1, 3] 2 0 (by decide) (by decide)).2.1 (by decide)

/-- If the observation count is at least 2 and the sample variance is
zero, every observation equals the mean. -/
lemma all_eq_mean_of_var_zero (l : List ℚ) (hlen : 2 ≤ l.length)
    (hvar : sampleVarQ l = 0) : ∀ x ∈ l, x = sampleMean l := by
  have hden : ((l.length - 1 : ℕ) : ℚ) ≠ 0 :=
    Nat.cast_ne_zero.mpr (by omega)
  have hS : (l.map (fun x => (x - sampleMean l) ^ 2)).sum = 0 := by
    rcases div_eq_zero_iff.mp hvar with h | h
    · exact h
    · exact absurd h hden
  have hz := all_zero_of_nonneg_sum_zero (l.map (fun x => (x - sampleMean l) ^ 2))
    (by
      intro y hy
      obtain ⟨x, _, hx⟩ := List.mem_map.mp hy
      rw [← hx]
      exact sq_nonneg _) hS
  intro x hx
  have : (x - sampleMean l) ^ 2 = 0 :=
    hz _ (List.mem_map.mpr ⟨x, hx, rfl⟩)
  have := pow_eq_zero_iff (n := 2) (by omega) |>.mp this
  linarith [sub_eq_zero.mp this]

/-- If the strategy-return observation list has at least two entries,
it contains the zero return of bar 1 (bar 0's signal is neutral). -/
lemma zero_mem_stratReturnsList (closes : List ℚ) (sw lw : ℕ)
    (hsw : 1 ≤ sw) (hlw : 1 ≤ lw)
    (hlen : 2 ≤ (stratReturnsList closes sw lw).length) :
    (0 : ℚ) ∈ stratReturnsList closes sw lw := by
  have hn : 2 ≤ closes.length := by
    by_contra hn
    have : stratReturnsList closes sw lw = [] := by
      unfold stratReturnsList
      match closes, hn with
      | [], _ => rfl
      | [c], _ =>
        simp [List.range_succ, strategyReturnAt_zero]
      | c :: c' :: rest, hn =>
        simp only [List.length_cons] at hn
        omega
    rw [this] at hlen
    simp at hlen
  exact List.mem_filterMap.mpr ⟨1, List.mem_range.mpr (by omega),
    strategyReturnAt_one closes sw lw hsw hlw⟩

/-- C7: when the standard deviation of the daily strategy returns is
zero or undefined (fewer than two observations, or zero sample
variance), the Sharpe computation yields the float `NaN` — an explicit
undefined value, with no exception raised (the embedding is a total
function into `SharpeVal`); otherwise it is the finite value
`mean / stdev * sqrt 252`, recorded as the exact pair
`(mean, variance)`. -/
theorem c7_sharpe_undefined_on_zero_std (closes : List ℚ) (sw lw : ℕ)
    (hsw : 1 ≤ sw) (hlw : 1 ≤ lw) :
    ((stratReturnsList closes sw lw).length < 2 ∨
        sampleVarQ (stratReturnsList closes sw lw) = 0 →
      sharpeValOf (stratReturnsList closes sw lw) = SharpeVal.nan) ∧
    (2 ≤ (stratReturnsList closes sw lw).length ∧
        sampleVarQ (stratReturnsList closes sw lw) ≠ 0 →
      sharpeValOf (stratReturnsList closes sw lw) =
        SharpeVal.finite (sampleMean (stratReturnsList closes sw lw))
          (sampleVarQ (stratReturnsList closes sw lw))) := by
  constructor
  · intro h
    by_cases hlen : 2 ≤ (stratReturnsList closes sw lw).length
    · have hvar : sampleVarQ (stratReturnsList closes sw lw) = 0 := by
        rcases h with h | h
        · omega
        · exact h
      have hmean : sampleMean (stratReturnsList closes sw lw) = 0 :=
        ((all_eq_mean_of_var_zero _ hlen hvar) 0
          (zero_mem_stratReturnsList closes sw lw hsw hlw hlen)).symm
      unfold sharpeValOf
      rw [if_pos hlen, if_pos hvar, if_pos hmean]
    · unfold sharpeValOf
      rw [if_neg hlen]
  · intro ⟨hlen, hvar⟩
    unfold sharpeValOf
    rw [if_pos hlen, if_neg hvar]

/-- Witness for C7 at the constant series `[1, 1, 1]`: both strategy
returns are zero, the variance is zero, and the Sharpe value is `NaN`. -/
theorem c7_witness :
    sharpeValOf (stratReturnsList [1, 1, 1] 1 2) = SharpeVal.nan := by
  apply (c7_sharpe_undefined_on_zero_std [1, 1, 1] 1 2 (by decide) (by decide)).1
  right
  have hl : stratReturnsList [1, 1, 1] 1 2 = [0, 0] := by
    norm_num [stratReturnsList, strategyReturnAt, dailyReturnAt, shiftedSignalAt,
      signalAt, smaAt, List.range_succ, List.filterMap_cons, List.filterMap_append]
  rw [hl]
  norm_num [sampleVarQ, sampleMean]

/-- C8: the value columns are exactly `initial_capital` times their
cumulative-factor columns, cell by cell (`NaN` cells included), and
wherever both are defined the round-trip identity
`value = capital * factor` holds. -/
theorem c8_value_roundtrip (cap : ℚ) (closes : List ℚ) (sw lw t : ℕ) :
    buyHoldValueAt cap closes t = (buyHoldCumAt closes t).map (fun c => cap * c) ∧
    strategyValueAt cap closes sw lw t =
      (strategyCumAt closes sw lw t).map (fun c => cap * c) ∧
    (∀ v c, buyHoldValueAt cap closes t = some v →
      buyHoldCumAt closes t = some c → v = cap * c) ∧
    (∀ v c, strategyValueAt cap closes sw lw t = some v →
      strategyCumAt closes sw lw t = some c → v = cap * c) := by
  refine ⟨rfl, rfl, ?_, ?_⟩
  · intro v c hv hc
    rw [buyHoldValueAt, hc] at hv
    exact (Option.some_inj.mp hv).symm
  · intro v c hv hc
    rw [strategyValueAt, hc] at hv
    exact (Option.some_inj.mp hv).symm

/-- Witness for C8 at `cap = 5`, `closes = [1, 2]`, `t = 1`, where the
strategy factor is `1` and the value is the capital. -/
theorem c8_witness :
    (5 : ℚ) = 5 * 1 ∧
    buyHoldValueAt 5 [1, 2] 1 = (buyHoldCumAt [1, 2] 1).map (fun c => 5 * c) := by
  constructor
  · exact (c8_value_roundtrip 5 [1, 2] 1 2 1).2.2.2 5 1
      (strategyValueAt_one 5 [1, 2] 1 2 (by decide) (by decide))
      (strategyCumAt_one [1, 2] 1 2 (by decide) (by decide))
  · exact (c8_value_roundtrip 5 [1, 2] 1 2 1).1

/-- C9: with `years = 1` the annualized-return formula collapses to the
total-return formula, for any final value and capital — hence for both
the strategy and the buy-and-hold final values. -/
theorem c9_annualized_one_year (fv cap : ℝ) :
    annualizedReturnPct fv cap 1 = totalReturnPct fv cap := by
  unfold annualizedReturnPct totalReturnPct
  rw [div_one, Real.rpow_one]

/-- The four series columns written by `backtest`, as produced by one
run of the pipeline with the given windows. -/
structure Columns : Type where
  buyHoldCum : List (Option ℚ)
  strategyCum : List (Option ℚ)
  buyHoldValue : List (Option ℚ)
  strategyValue : List (Option ℚ)

/-- One run of `backtest`: all four columns from the price series,
window sizes and initial capital. -/
def backtestColumns (closes : List ℚ) (sw lw : ℕ) (cap : ℚ) : Columns :=
  ⟨buyHoldCumList closes,
   (List.range closes.length).map (strategyCumAt closes sw lw),
   buyHoldValueList cap closes,
   (List.range closes.length).map (strategyValueAt cap closes sw lw)⟩

/-- C10: two runs over the same price series and capital that differ
only in the moving-average windows produce identical buy-and-hold
outputs: the `Buy_Hold_Return` and `Buy_Hold_Value` columns, the final
buy-and-hold value, its total return, its Sharpe value, and its
annualized return for every elapsed-years value. -/
theorem c10_buy_hold_noninterference (closes : List ℚ) (cap : ℚ)
    (sw lw sw' lw' : ℕ) :
    (backtestColumns closes sw lw cap).buyHoldCum =
      (backtestColumns closes sw' lw' cap).buyHoldCum ∧
    (backtestColumns closes sw lw cap).buyHoldValue =
      (backtestColumns closes sw' lw' cap).buyHoldValue ∧
    (calcMetrics closes sw lw cap).buyHoldTotal =
      (calcMetrics closes sw' lw' cap).buyHoldTotal ∧
    (calcMetrics closes sw lw cap).buyHoldFinal =
      (calcMetrics closes sw' lw' cap).buyHoldFinal ∧
    (calcMetrics closes sw lw cap).buyHoldSharpe =
      (calcMetrics closes sw' lw' cap).buyHoldSharpe ∧
    (∀ years : ℝ,
      annualizedReturnPct
        ((((calcMetrics closes sw lw cap).buyHoldFinal.getD 0 : ℚ)) : ℝ)
        (cap : ℝ) years =
      annualizedReturnPct
        ((((calcMetrics closes sw' lw' cap).buyHoldFinal.getD 0 : ℚ)) : ℝ)
        (cap : ℝ) years) :=
  ⟨rfl, rfl, rfl, rfl, rfl, fun _ => rfl⟩

end TradingStrategy
